import Mathlib

/-!
# Verification of the latzero shared-memory data plane

A shallow embedding of `src/latzero/core/memory.py`: the `Serializer`
(msgpack-preferred, pickle fallback, opportunistic zlib compression) and
`SharedMemoryPoolData` (segment header/payload layout, doubling expansion
capped at 100 MiB, whole-map refresh/writeback, lazy TTL expiry).

Modelling conventions:
* Python byte strings are `List Nat`; machine integers are `Nat`/`Int`
  (all sizes involved are far below 2^64, where `struct.pack('Q', ·)`
  would wrap).
* The external codec libraries `msgpack` and `pickle` are not part of
  the repository; they are modelled by one executable injective codec
  (`encVal`/`decVal`) over the tree of primitives both can represent,
  with `packb` failing exactly on values containing a host object that
  msgpack cannot encode (the pickle-fallback trigger).  `zlib` is
  modelled by an executable run-length coder: like the real library it
  is inverted by its decompressor, sometimes shrinks its input and
  sometimes grows it, which is all the source code depends on.
* Python exceptions are `Option`/`Except` failures; `time.time()` is an
  explicit integer-valued instant passed to each operation.
* Python `dict` is an association list with unique keys in insertion
  order; `del d[k]` / `d[k] = v` become `alErase` / `alSet`.
-/

namespace LatZero

/-- The tree of primitive values both codecs can exchange (§4.1 of the
spec: booleans, integers, strings, byte strings, sequences, mappings),
plus `obj`, an opaque host object that only the pickle fallback can
serialize. Floats are not modelled (timestamps are embedded as integer
instants). -/
inductive Value where
  | nil
  | bool (b : Bool)
  | int (i : Int)
  | str (s : String)
  | bin (bs : List Nat)
  | arr (vs : List Value)
  | dict (kvs : List (Value × Value))
  | obj (n : Nat)
deriving Repr

/-- Integers as naturals: even = non-negative, odd = negative. -/
def encInt : Int → Nat
  | .ofNat n => 2 * n
  | .negSucc n => 2 * n + 1

def decInt (n : Nat) : Int :=
  if n % 2 = 0 then .ofNat (n / 2) else .negSucc (n / 2)

theorem decInt_encInt (i : Int) : decInt (encInt i) = i := by
  cases i with
  | ofNat n => simp [encInt, decInt, Nat.mul_div_cancel_left n (by norm_num : 0 < 2)]
  | negSucc n =>
      simp [encInt, decInt, Nat.mul_add_mod]
      omega

mutual

/-- The shared injective codec standing in for `msgpack.packb` and
`pickle.dumps`: each node is a tag followed by its (length-prefixed)
children. -/
def encVal : Value → List Nat
  | .nil => [0]
  | .bool b => [1, cond b 1 0]
  | .int i => [2, encInt i]
  | .str s => 3 :: (s.toList.map Char.toNat).length :: s.toList.map Char.toNat
  | .bin bs => 4 :: bs.length :: bs
  | .arr vs => 5 :: vs.length :: encList vs
  | .dict kvs => 6 :: kvs.length :: encPairs kvs
  | .obj n => [7, n]

def encList : List Value → List Nat
  | [] => []
  | v :: vs => encVal v ++ encList vs

def encPairs : List (Value × Value) → List Nat
  | [] => []
  | (k, v) :: kvs => encVal k ++ encVal v ++ encPairs kvs

end

mutual

/-- Nesting depth of a value: the fuel a decoder needs. -/
def vdepth : Value → Nat
  | .arr vs => ldepth vs + 1
  | .dict kvs => pdepth kvs + 1
  | _ => 1

def ldepth : List Value → Nat
  | [] => 0
  | v :: vs => max (vdepth v) (ldepth vs)

def pdepth : List (Value × Value) → Nat
  | [] => 0
  | (k, v) :: kvs => max (max (vdepth k) (vdepth v)) (pdepth kvs)

end

mutual

/-- Decoder for `encVal`, standing in for `msgpack.unpackb` and
`pickle.loads`; `none` models the decode exception on malformed input. -/
def decVal : Nat → List Nat → Option (Value × List Nat)
  | _ + 1, 0 :: rest => some (.nil, rest)
  | _ + 1, 1 :: b :: rest =>
      if b = 0 then some (.bool false, rest)
      else if b = 1 then some (.bool true, rest) else none
  | _ + 1, 2 :: n :: rest => some (.int (decInt n), rest)
  | _ + 1, 3 :: len :: rest =>
      if len ≤ rest.length then
        some (.str (String.mk ((rest.take len).map Char.ofNat)), rest.drop len)
      else none
  | _ + 1, 4 :: len :: rest =>
      if len ≤ rest.length then some (.bin (rest.take len), rest.drop len) else none
  | fuel + 1, 5 :: n :: rest =>
      (decList fuel n rest).map fun p => (.arr p.1, p.2)
  | fuel + 1, 6 :: n :: rest =>
      (decPairs fuel n rest).map fun p => (.dict p.1, p.2)
  | _ + 1, 7 :: n :: rest => some (.obj n, rest)
  | _, _ => none

def decList : Nat → Nat → List Nat → Option (List Value × List Nat)
  | _, 0, rest => some ([], rest)
  | fuel, n + 1, rest => do
      let (v, r) ← decVal fuel rest
      let (vs, r2) ← decList fuel n r
      pure (v :: vs, r2)

def decPairs : Nat → Nat → List Nat → Option (List (Value × Value) × List Nat)
  | _, 0, rest => some ([], rest)
  | fuel, n + 1, rest => do
      let (k, r) ← decVal fuel rest
      let (v, r2) ← decVal fuel r
      let (kvs, r3) ← decPairs fuel n r2
      pure ((k, v) :: kvs, r3)

end

mutual

/-- Values `msgpack.packb` can represent: everything except host objects. -/
def msgpackable : Value → Bool
  | .nil => true
  | .bool _ => true
  | .int _ => true
  | .str _ => true
  | .bin _ => true
  | .arr vs => msgpackableL vs
  | .dict kvs => msgpackableP kvs
  | .obj _ => false

def msgpackableL : List Value → Bool
  | [] => true
  | v :: vs => msgpackable v && msgpackableL vs

def msgpackableP : List (Value × Value) → Bool
  | [] => true
  | (k, v) :: kvs => msgpackable k && msgpackable v && msgpackableP kvs

end

/-- `msgpack.packb(obj, use_bin_type=True)`: `none` models the
`TypeError`/`ValueError` raised on non-representable values, which is
what sends `Serializer.serialize` down the pickle fallback. -/
def packb (v : Value) : Option (List Nat) :=
  if msgpackable v then some (encVal v) else none

/-- `pickle.dumps(obj, protocol=HIGHEST_PROTOCOL)`: total. -/
def dumps (v : Value) : List Nat := encVal v

/-- `msgpack.unpackb(payload, raw=False)`; `none` models the exception
raised on malformed or trailing input. -/
def unpackb (bs : List Nat) : Option Value :=
  match decVal (bs.length + 1) bs with
  | some (v, []) => some v
  | _ => none

/-- `pickle.loads`, modelled with the same codec as `unpackb`. -/
def loads (bs : List Nat) : Option Value := unpackb bs

/-- Run of equal bytes, used by the model of `zlib.compress(·, level=1)`. -/
def rleRun (cur cnt : Nat) : List Nat → List Nat
  | [] => [cnt, cur]
  | y :: ys => if y = cur then rleRun cur (cnt + 1) ys else cnt :: cur :: rleRun y 1 ys

/-- `zlib.compress(data, level=1)` modelled as a run-length coder: like
the real library it is inverted by the decompressor below, and its
output is sometimes shorter and sometimes longer than its input — the
only properties `Serializer` relies on. -/
def rleEncode : List Nat → List Nat
  | [] => []
  | x :: xs => rleRun x 1 xs

/-- `zlib.decompress`; `none` models the exception on a malformed stream. -/
def rleDecode : List Nat → Option (List Nat)
  | [] => some []
  | cnt :: v :: rest => (rleDecode rest).map (List.replicate cnt v ++ ·)
  | [_] => none

/-- `Serializer.MSGPACK_HEADER[0]`. -/
def MSGPACK_HEADER : Nat := 1

/-- `Serializer.PICKLE_HEADER[0]`. -/
def PICKLE_HEADER : Nat := 2

/-- `Serializer.COMPRESSED_FLAG` (high bit set = compressed). -/
def COMPRESSED_FLAG : Nat := 128

/-- The `Serializer` configuration: `_use_msgpack` (i.e.
`prefer_msgpack and HAS_MSGPACK`) and `_compress_threshold`, which the
constructor accepts as a possibly negative int (`-1` disables
compression in the code path below). -/
structure SerCfg where
  use_msgpack : Bool
  compress_threshold : Int
deriving Repr, DecidableEq

/-- First half of `Serializer.serialize`: choose the format and produce
`(data, header)` — msgpack when configured and representable, pickle
fallback otherwise. -/
def serializeRaw (cfg : SerCfg) (v : Value) : List Nat × Nat :=
  if cfg.use_msgpack then
    match packb v with
    | some d => (d, MSGPACK_HEADER)
    | none => (dumps v, PICKLE_HEADER)
  else (dumps v, PICKLE_HEADER)

/-- Second half of `Serializer.serialize`: compress when the threshold
is non-negative and exceeded, keep the compressed form only if strictly
smaller (setting the high header bit), then prepend the header byte. -/
def compressStep (th : Int) (dh : List Nat × Nat) : List Nat :=
  if 0 ≤ th ∧ (dh.1.length : Int) > th then
    if (rleEncode dh.1).length < dh.1.length then
      (dh.2 ||| COMPRESSED_FLAG) :: rleEncode dh.1
    else dh.2 :: dh.1
  else dh.2 :: dh.1

/-- `Serializer.serialize`. -/
def serialize (cfg : SerCfg) (v : Value) : List Nat :=
  compressStep cfg.compress_threshold (serializeRaw cfg v)

/-- `Serializer.deserialize`; empty input decodes to `None`, a header
with the high bit set is decompressed first (`header &= ~0x80` clears
the bit: our headers are single bytes, so `&&& 127` is that operation),
then format `0x01` decodes via msgpack and anything else via pickle.
`none` models a propagated decode exception. -/
def deserialize (data : List Nat) : Option Value :=
  match data with
  | [] => some .nil
  | header :: payload =>
      let hp : Option (Nat × List Nat) :=
        if header &&& COMPRESSED_FLAG ≠ 0 then
          (rleDecode payload).map fun p => (header &&& 127, p)
        else some (header, payload)
      match hp with
      | none => none
      | some (h, p) => if h = MSGPACK_HEADER then unpackb p else loads p

/-- One record: the dict `{'value': v, 'timestamp': t, 'auto_clean': a}`
that `set` stores (timestamps are integer instants, see the header). -/
structure Entry where
  value : Value
  timestamp : Int
  auto_clean : Option Int
deriving Repr

/-- `SharedMemoryPoolData._data`: a Python dict modelled as an
insertion-ordered association list with unique keys. -/
abbrev PMap := List (String × Entry)

def optIntToValue : Option Int → Value
  | none => .nil
  | some t => .int t

/-- The record dict as a serializable value, with the key order of the
dict literal in `set`. -/
def entryToValue (e : Entry) : Value :=
  .dict [(.str "value", e.value), (.str "timestamp", .int e.timestamp),
         (.str "auto_clean", optIntToValue e.auto_clean)]

def valueToEntry : Value → Option Entry
  | .dict [(.str "value", v), (.str "timestamp", .int t), (.str "auto_clean", a)] =>
      match a with
      | .nil => some ⟨v, t, none⟩
      | .int tc => some ⟨v, t, some tc⟩
      | _ => none
  | _ => none

def mapToValue (m : PMap) : Value :=
  .dict (m.map fun ke => (.str ke.1, entryToValue ke.2))

def pairToEntry : Value × Value → Option (String × Entry)
  | (.str k, ev) => (valueToEntry ev).map fun e => (k, e)
  | _ => none

def pairsToMap : List (Value × Value) → Option PMap
  | [] => some []
  | kv :: kvs =>
      match pairToEntry kv with
      | none => none
      | some ke => (pairsToMap kvs).map fun rest => ke :: rest

def valueToMap : Value → Option PMap
  | .dict kvs => pairsToMap kvs
  | _ => none

/-- The whole-map payload `set`/`delete`/`cleanup_expired` write:
`self._serializer.serialize(data)`. -/
def serializeMap (cfg : SerCfg) (m : PMap) : List Nat :=
  serialize cfg (mapToValue m)

/-- `SharedMemoryPoolData.INITIAL_SIZE` (1 MiB). -/
def INITIAL_SIZE : Nat := 1024 * 1024

/-- `SharedMemoryPoolData.GROWTH_FACTOR`. -/
def GROWTH_FACTOR : Nat := 2

/-- `SharedMemoryPoolData.MAX_SIZE` (100 MiB). -/
def MAX_SIZE : Nat := 100 * 1024 * 1024

/-- `SharedMemoryPoolData.HEADER_SIZE`: 8 bytes length + 8 bytes capacity. -/
def HEADER_SIZE : Nat := 16

/-- A shared-memory segment: the two 64-bit header fields and the
payload bytes `buf[16:16+L]`.  The length field always equals the
written payload's length, so `L` is `payload.length`; `capacity` is the
header capacity field, which `_write_data`/`_expand_memory` keep equal
to `self._current_size`.  Bytes beyond `16+L` are stale padding that no
read path ever inspects, so they are not modelled. -/
structure Segment where
  payload : List Nat
  capacity : Nat
deriving Repr, DecidableEq

/-- A freshly created segment: `SharedMemory(create=True,
size=INITIAL_SIZE)` zero-fills the buffer, so the header length field
reads 0 (empty payload). -/
def seg0 : Segment := { payload := [], capacity := INITIAL_SIZE }

/-- `MemoryFullError` from `latzero.utils.exceptions`. -/
inductive MemErr where
  | memoryFull
deriving Repr, DecidableEq

/-- The `while` loop of `_expand_memory`:
`while new_size < needed_size and new_size < MAX_SIZE: new_size =
min(new_size * GROWTH_FACTOR, MAX_SIZE)`.  The extra `0 < size` guard
is a termination artifact only: the Python loop diverges at size 0,
which no reachable capacity attains (they are all ≥ INITIAL_SIZE). -/
def growLoop (needed size : Nat) : Nat :=
  if h : size < needed ∧ size < MAX_SIZE ∧ 0 < size then
    growLoop needed (min (size * GROWTH_FACTOR) MAX_SIZE)
  else size
termination_by MAX_SIZE - size
decreasing_by
  unfold MAX_SIZE GROWTH_FACTOR
  unfold MAX_SIZE at h
  omega

/-- `_expand_memory`, reduced to its effect on the capacity: run the
doubling loop, then `raise MemoryFullError` when
`new_size >= MAX_SIZE and needed_size > new_size`.  (The data copy into
the fresh segment is subsumed by the full payload overwrite every
caller performs right after.) -/
def expandCap (current needed : Nat) : Except MemErr Nat :=
  if growLoop needed current ≥ MAX_SIZE ∧ needed > growLoop needed current then
    .error .memoryFull
  else .ok (growLoop needed current)

/-- `_write_data`: serialize the whole map, expand if
`total_needed > self._current_size` (the raise propagates, leaving the
segment untouched), then overwrite the header and payload. -/
def writeData (cfg : SerCfg) (sg : Segment) (m : PMap) : Except MemErr Segment :=
  match (if (serializeMap cfg m).length + HEADER_SIZE > sg.capacity
         then expandCap sg.capacity ((serializeMap cfg m).length + HEADER_SIZE)
         else .ok sg.capacity) with
  | .error e => .error e
  | .ok cap => .ok { payload := serializeMap cfg m, capacity := cap }

/-- `_read_data`: a zero length field is an empty map; any decode
exception is swallowed into an empty map.  (A payload that decodes to a
non-dict value is never produced by any write of this module; it is
collapsed to the empty map here.) -/
def readData (sg : Segment) : PMap :=
  if sg.payload.length = 0 then []
  else
    match deserialize sg.payload with
    | none => []
    | some v => (valueToMap v).getD []

/-- Segments reachable through the pool's write path: freshly created,
then closed under successful `_write_data` calls (the only way any
operation of `SharedMemoryPoolData` mutates the segment). -/
inductive ReachableSeg (cfg : SerCfg) : Segment → Prop
  | init : ReachableSeg cfg seg0
  | step {sg m sg2} : ReachableSeg cfg sg → writeData cfg sg m = .ok sg2 →
      ReachableSeg cfg sg2

/-- True when `_read_data`'s decode of a nonempty payload raises. -/
def decodeFails (sg : Segment) : Bool :=
  sg.payload.length != 0 && (deserialize sg.payload).isNone

/-- The read path of `refresh` against a concurrently writable segment:
`_read_data` is called exactly once per `refresh`, observing one
snapshot from the stream of snapshots successive physical reads would
see.  Returns the resulting map and the unconsumed snapshots. -/
def refreshSnaps : List Segment → PMap × List Segment
  | [] => ([], [])
  | sg :: rest => (readData sg, rest)

/-- Modelled from the spec (§4.4 refresh policy): "If decoding fails
(torn read), the operation retries the read once; a second failure is
treated as an empty map."  Defined from the spec's words, for
comparison with `refreshSnaps`. -/
def refreshRetrySpec : List Segment → PMap × List Segment
  | [] => ([], [])
  | sg :: rest =>
      if decodeFails sg then
        match rest with
        | [] => ([], [])
        | sg2 :: rest2 =>
            if decodeFails sg2 then ([], rest2) else (readData sg2, rest2)
      else (readData sg, rest)

/-- Pool configuration: the serializer in use, the `encryption` flag
and the `auth_key` string given to `SharedMemoryPoolData.__init__`. -/
structure PoolCfg where
  ser : SerCfg
  encryption : Bool
  auth_key : String

/-- The mutable state of one `SharedMemoryPoolData`: the in-process
cache `self._data` and the shared segment.  The process-local locks
serialize the operations below and have no effect on their sequential
semantics, so they are not modelled. -/
structure PoolState where
  data : PMap
  seg : Segment

def hexChar (n : Nat) : Char :=
  "0123456789abcdef".toList.getD n '0'

def toHex (bs : List Nat) : String :=
  String.mk (bs.flatMap fun b => [hexChar (b / 16), hexChar (b % 16)])

def hexVal (c : Char) : Nat :=
  "0123456789abcdef".toList.indexOf c

def fromHexAux : List Char → List Nat
  | c1 :: c2 :: rest => (hexVal c1 * 16 + hexVal c2) :: fromHexAux rest
  | _ => []

/-- `bytes.fromhex` (on the well-formed hex strings this module writes). -/
def fromHex (s : String) : List Nat :=
  fromHexAux s.toList

/-- Modelled from the spec: `encrypt_data` lives in
`latzero/core/encryption.py`, which is not under `src/`; §6 requires
only that decryption inverts it and that ciphertext is opaque bytes.
Modelled as prepending a key digest. -/
def encrypt_data (data : List Nat) (key : String) : List Nat :=
  (key.toList.map Char.toNat).foldl (fun a b => a + b) 0 :: data

/-- Modelled from the spec: inverse of `encrypt_data` (§6 round-trip;
authenticated encryption is recommended there but not mandated). -/
def decrypt_data (data : List Nat) (_key : String) : List Nat :=
  data.drop 1

/-- `isinstance(value, str) and value.startswith('enc:')`. -/
def isEncStr : Value → Bool
  | .str s => s.startsWith "enc:"
  | _ => false

/-- The stored form of a value under encryption:
`'enc:' + encrypt_data(serialize(value), auth_key).hex()`. -/
def encryptValue (cfg : PoolCfg) (v : Value) : Value :=
  .str ("enc:" ++ toHex (encrypt_data (serialize cfg.ser v) cfg.auth_key))

/-- The read-side decryption in `get`:
`deserialize(decrypt_data(bytes.fromhex(value[4:]), auth_key))`.  (For
ciphertext this module wrote, the decode cannot fail; the `getD`
collapses the unreachable failure.) -/
def decryptValue (cfg : PoolCfg) : Value → Value
  | .str s => (deserialize (decrypt_data (fromHex (s.drop 4)) cfg.auth_key)).getD .nil
  | v => v

/-- `self._data.get(key)`. -/
def alLookup : PMap → String → Option Entry
  | [], _ => none
  | (k2, e) :: d, k => if k2 = k then some e else alLookup d k

/-- `self._data[key] = entry`: replace in place, else append (dict
insertion order). -/
def alSet : PMap → String → Entry → PMap
  | [], k, e => [(k, e)]
  | (k2, e2) :: d, k, e => if k2 = k then (k, e) :: d else (k2, e2) :: alSet d k e

/-- `del self._data[key]` (on a unique-key dict). -/
def alErase (d : PMap) (k : String) : PMap :=
  d.filter fun ke => ke.1 != k

/-- The expiry test of `get`/`cleanup_expired`:
`entry.get('auto_clean')` is truthy (present and nonzero) and
`now - entry['timestamp'] > entry['auto_clean']`. -/
def entryExpired (now : Int) (e : Entry) : Bool :=
  match e.auto_clean with
  | some t => decide (t ≠ 0) && decide (now - e.timestamp > t)
  | none => false

/-- `refresh`: replace the cache with the segment's map. -/
def refreshS (s : PoolState) : PoolState :=
  { s with data := readData s.seg }

/-- `save`: write the cache back; the `MemoryFullError` of a failed
expansion propagates, leaving the segment as it was. -/
def saveS (cfg : PoolCfg) (s : PoolState) : Except MemErr PoolState :=
  match writeData cfg.ser s.seg s.data with
  | .ok sg => .ok { s with seg := sg }
  | .error e => .error e

/-- `get`: refresh; absent (or Python-falsy, i.e. missing) entry gives
`None`; an expired entry is deleted in place, saved, and reported
`None`; otherwise the value, decrypted when the pool uses encryption
and the stored value carries the `enc:` sentinel.  The returned pair is
the Python return value (or the propagating exception) together with
the object state afterwards. -/
def getOp (cfg : PoolCfg) (now : Int) (s : PoolState) (key : String) :
    Except MemErr Value × PoolState :=
  let s1 := refreshS s
  match alLookup s1.data key with
  | none => (.ok .nil, s1)
  | some entry =>
      if entryExpired now entry then
        let s2 := { s1 with data := alErase s1.data key }
        match saveS cfg s2 with
        | .ok s3 => (.ok .nil, s3)
        | .error e => (.error e, s2)
      else
        let v0 := entry.value
        let v1 := if cfg.encryption && isEncStr v0 then decryptValue cfg v0 else v0
        (.ok v1, s1)

/-- `set`: refresh, store
`{'value': maybe-encrypted value, 'timestamp': now, 'auto_clean': ttl}`,
save. -/
def setOp (cfg : PoolCfg) (now : Int) (s : PoolState) (key : String) (value : Value)
    (auto_clean : Option Int) : Except MemErr Unit × PoolState :=
  let s1 := refreshS s
  let stored := if cfg.encryption then encryptValue cfg value else value
  let s2 := { s1 with data := alSet s1.data key ⟨stored, now, auto_clean⟩ }
  match saveS cfg s2 with
  | .ok s3 => (.ok (), s3)
  | .error e => (.error e, s2)

/-- `delete`: refresh; if present, remove, save and return `True`,
else return `False`. -/
def deleteOp (cfg : PoolCfg) (s : PoolState) (key : String) :
    Except MemErr Bool × PoolState :=
  let s1 := refreshS s
  if (alLookup s1.data key).isSome then
    let s2 := { s1 with data := alErase s1.data key }
    match saveS cfg s2 with
    | .ok s3 => (.ok true, s3)
    | .error e => (.error e, s2)
  else (.ok false, s1)

/-- `exists`: `self.get(key) is not None`. -/
def existsOp (cfg : PoolCfg) (now : Int) (s : PoolState) (key : String) :
    Except MemErr Bool × PoolState :=
  match getOp cfg now s key with
  | (.ok v, s1) => (.ok (match v with | .nil => false | _ => true), s1)
  | (.error e, s1) => (.error e, s1)

/-- `keys_with_prefix`: refresh, then the keys starting with the given
string, in map order, with no expiry filtering. -/
def keysWithPre (s : PoolState) (pre : String) : List String × PoolState :=
  let s1 := refreshS s
  ((s1.data.map Prod.fst).filter (fun k => k.startsWith pre), s1)

/-- `all_keys`: refresh, then every key, with no expiry filtering. -/
def allKeys (s : PoolState) : List String × PoolState :=
  let s1 := refreshS s
  (s1.data.map Prod.fst, s1)

/-- `size`: refresh, then the number of entries, expired ones included. -/
def sizeOp (s : PoolState) : Nat × PoolState :=
  let s1 := refreshS s
  (s1.data.length, s1)

/-- `cleanup_expired`: re-read the map, collect the expired keys,
delete them, write back once if any were removed, and return how many. -/
def cleanupExpired (cfg : PoolCfg) (now : Int) (s : PoolState) :
    Except MemErr Nat × PoolState :=
  let s1 := { s with data := readData s.seg }
  let toRemove := (s1.data.filter fun ke => entryExpired now ke.2).map Prod.fst
  let s2 := { s1 with data := toRemove.foldl alErase s1.data }
  if toRemove.isEmpty then (.ok toRemove.length, s2)
  else
    match writeData cfg.ser s2.seg s2.data with
    | .ok sg => (.ok toRemove.length, { s2 with seg := sg })
    | .error e => (.error e, s2)

/-- Capacities the expansion strategy can produce: a doubling of
`INITIAL_SIZE`, or the clamp value `MAX_SIZE` itself. -/
def CapShape (c : Nat) : Prop :=
  (∃ k, c = INITIAL_SIZE * 2 ^ k ∧ c ≤ MAX_SIZE) ∨ c = MAX_SIZE

/-- Segment invariant maintained by every write:
`HEADER_SIZE + L ≤ C` and the capacity has the doubling shape. -/
def SegInv (sg : Segment) : Prop :=
  CapShape sg.capacity ∧ sg.payload.length + HEADER_SIZE ≤ sg.capacity

/-- The default serializer configuration
(`prefer_msgpack=True, compress_threshold=1024`). -/
def cfg0 : PoolCfg :=
  { ser := { use_msgpack := true, compress_threshold := 1024 },
    encryption := false, auth_key := "" }

/-- A serializer with compression disabled (`compress_threshold=-1`). -/
def cfgNC : SerCfg := { use_msgpack := true, compress_threshold := -1 }

/-- A pool without encryption using the no-compression serializer. -/
def cfgPNC : PoolCfg := { ser := cfgNC, encryption := false, auth_key := "" }

/-- A freshly opened pool: empty cache over a fresh segment. -/
def p0 : PoolState := { data := [], seg := seg0 }

/-- A record with `ttl = 1` written at instant 0. -/
def entE : Entry := { value := .int 5, timestamp := 0, auto_clean := some 1 }

/-- A segment holding the single record `entE` under key `"k"`. -/
def segE : Segment :=
  { payload := serializeMap cfg0.ser [("k", entE)], capacity := INITIAL_SIZE }

/-- A pool state attached to `segE`. -/
def pE : PoolState := { data := [], seg := segE }

/-- A segment whose payload does not decode (a torn read): format byte
`0x01` followed by a byte that is no valid encoding. -/
def tornSeg : Segment := { payload := [1, 99], capacity := INITIAL_SIZE }

def goodMap : PMap := [("a", { value := .int 5, timestamp := 7, auto_clean := none })]

/-- A segment holding `goodMap`, as a re-read after a torn read would see it. -/
def goodSeg : Segment :=
  { payload := serializeMap cfg0.ser goodMap, capacity := INITIAL_SIZE }

/-- A 64 MiB byte-string value: big enough that writing it drives the
doubling loop into the `MAX_SIZE` clamp, yet small enough to fit. -/
def bigVal : Value := .bin (List.replicate 67108864 0)

/-- A 128 MiB byte-string value: too big for `MAX_SIZE`. -/
def hugeVal : Value := .bin (List.replicate 134217728 0)

theorem one_le_vdepth (v : Value) : 1 ≤ vdepth v := by
  cases v <;> simp [vdepth]

/-- Decoding inverts encoding, given fuel at least the nesting depth. -/
theorem dec_enc_all : ∀ fuel : Nat,
    (∀ v rest, vdepth v ≤ fuel → decVal fuel (encVal v ++ rest) = some (v, rest)) ∧
    (∀ vs rest, ldepth vs ≤ fuel →
      decList fuel vs.length (encList vs ++ rest) = some (vs, rest)) ∧
    (∀ kvs rest, pdepth kvs ≤ fuel →
      decPairs fuel kvs.length (encPairs kvs ++ rest) = some (kvs, rest)) := by
  intro fuel
  induction fuel with
  | zero =>
      refine ⟨fun v rest h => absurd (le_trans (one_le_vdepth v) h) (by omega), ?_, ?_⟩
      · intro vs rest h
        cases vs with
        | nil => simp [encList, decList]
        | cons v vs =>
            exfalso
            have h1 := one_le_vdepth v
            simp [ldepth] at h
            omega
      · intro kvs rest h
        cases kvs with
        | nil => simp [encPairs, decPairs]
        | cons kv kvs =>
            exfalso
            obtain ⟨k, v⟩ := kv
            have h1 := one_le_vdepth k
            simp [pdepth] at h
            omega
  | succ f ih =>
      obtain ⟨ihv, ihl, ihp⟩ := ih
      have hv : ∀ v rest, vdepth v ≤ f + 1 →
          decVal (f + 1) (encVal v ++ rest) = some (v, rest) := by
        intro v rest h
        cases v with
        | nil => simp [encVal, decVal]
        | bool b => cases b <;> simp [encVal, decVal]
        | int i => simp [encVal, decVal, decInt_encInt]
        | str s =>
            simp only [encVal, List.cons_append, decVal]
            rw [if_pos (by simp)]
            rw [List.take_left, List.drop_left]
            simp [List.map_map, Function.comp_def, Char.ofNat_toNat]
        | bin bs =>
            simp only [encVal, List.cons_append, decVal]
            rw [if_pos (by simp)]
            rw [List.take_left, List.drop_left]
        | arr vs =>
            simp only [encVal, List.cons_append, decVal]
            rw [ihl vs rest (by simp [vdepth] at h; omega)]
            rfl
        | dict kvs =>
            simp only [encVal, List.cons_append, decVal]
            rw [ihp kvs rest (by simp [vdepth] at h; omega)]
            rfl
        | obj n => simp [encVal, decVal]
      refine ⟨hv, ?_, ?_⟩
      · intro vs
        induction vs with
        | nil => intro rest _; simp [encList, decList]
        | cons v vs ihvs =>
            intro rest h
            have hd : vdepth v ≤ f + 1 := by simp [ldepth] at h; omega
            have ht : ldepth vs ≤ f + 1 := by simp [ldepth] at h; omega
            simp only [encList, List.append_assoc, List.length_cons, decList]
            rw [hv v (encList vs ++ rest) hd]
            simp only [Option.bind_eq_bind, Option.some_bind]
            rw [ihvs rest ht]
            rfl
      · intro kvs
        induction kvs with
        | nil => intro rest _; simp [encPairs, decPairs]
        | cons kv kvs ihkvs =>
            intro rest h
            obtain ⟨k, v⟩ := kv
            have hk : vdepth k ≤ f + 1 := by simp [pdepth] at h; omega
            have hvv : vdepth v ≤ f + 1 := by simp [pdepth] at h; omega
            have ht : pdepth kvs ≤ f + 1 := by simp [pdepth] at h; omega
            simp only [encPairs, List.append_assoc, List.length_cons, decPairs]
            rw [hv k (encVal v ++ (encPairs kvs ++ rest)) hk]
            simp only [Option.bind_eq_bind, Option.some_bind]
            rw [hv v (encPairs kvs ++ rest) hvv]
            simp only [Option.some_bind]
            rw [ihkvs rest ht]
            rfl

mutual

theorem vdepth_le_enc : (v : Value) → vdepth v ≤ (encVal v).length
  | .nil => by simp [vdepth, encVal]
  | .bool b => by simp [vdepth, encVal]
  | .int i => by simp [vdepth, encVal]
  | .str s => by simp [vdepth, encVal]
  | .bin bs => by simp [vdepth, encVal]
  | .arr vs => by
      have := ldepth_le_enc vs
      simp only [vdepth, encVal, List.length_cons]
      omega
  | .dict kvs => by
      have := pdepth_le_enc kvs
      simp only [vdepth, encVal, List.length_cons]
      omega
  | .obj n => by simp [vdepth, encVal]

theorem ldepth_le_enc : (vs : List Value) → ldepth vs ≤ (encList vs).length
  | [] => by simp [ldepth, encList]
  | v :: vs => by
      have h1 := vdepth_le_enc v
      have h2 := ldepth_le_enc vs
      simp only [ldepth, encList, List.length_append]
      omega

theorem pdepth_le_enc : (kvs : List (Value × Value)) → pdepth kvs ≤ (encPairs kvs).length
  | [] => by simp [pdepth, encPairs]
  | (k, v) :: kvs => by
      have h1 := vdepth_le_enc k
      have h2 := vdepth_le_enc v
      have h3 := pdepth_le_enc kvs
      simp only [pdepth, encPairs, List.length_append]
      omega

end

theorem rleDecode_rleRun (ys : List Nat) : ∀ cur cnt,
    rleDecode (rleRun cur cnt ys) = some (List.replicate cnt cur ++ ys) := by
  induction ys with
  | nil => intro cur cnt; simp [rleRun, rleDecode]
  | cons y ys ih =>
      intro cur cnt
      by_cases h : y = cur
      · subst h
        rw [rleRun, if_pos rfl, ih]
        have : List.replicate (cnt + 1) y ++ ys = List.replicate cnt y ++ (y :: ys) := by
          rw [List.replicate_succ' cnt y]
          simp
        rw [this]
      · rw [rleRun, if_neg h, rleDecode, ih y 1]
        simp

theorem rleDecode_rleEncode (l : List Nat) : rleDecode (rleEncode l) = some l := by
  cases l with
  | nil => simp [rleEncode, rleDecode]
  | cons x xs => rw [rleEncode, rleDecode_rleRun]; simp

theorem unpackb_encVal (v : Value) : unpackb (encVal v) = some v := by
  have h := (dec_enc_all ((encVal v).length + 1)).1 v []
    (le_trans (vdepth_le_enc v) (Nat.le_succ _))
  rw [List.append_nil] at h
  rw [unpackb, h]

theorem serializeRaw_spec (cfg : SerCfg) (v : Value) :
    serializeRaw cfg v = (encVal v, MSGPACK_HEADER) ∨
      serializeRaw cfg v = (encVal v, PICKLE_HEADER) := by
  unfold serializeRaw packb dumps
  by_cases h : cfg.use_msgpack <;> by_cases hm : msgpackable v <;> simp [h, hm]

theorem deserialize_compressStep (th : Int) (bs : List Nat) (h : Nat)
    (hh : h = MSGPACK_HEADER ∨ h = PICKLE_HEADER) :
    deserialize (compressStep th (bs, h)) = unpackb bs := by
  have hd : ∀ pl : List Nat, rleDecode pl = some bs →
      deserialize ((h ||| COMPRESSED_FLAG) :: pl) = unpackb bs := by
    intro pl hpl
    rcases hh with rfl | rfl <;>
      simp +decide [deserialize, MSGPACK_HEADER, PICKLE_HEADER, COMPRESSED_FLAG, loads, hpl]
  have hu : deserialize (h :: bs) = unpackb bs := by
    rcases hh with rfl | rfl <;>
      simp +decide [deserialize, MSGPACK_HEADER, PICKLE_HEADER, COMPRESSED_FLAG, loads]
  unfold compressStep
  split
  · split
    · exact hd _ (rleDecode_rleEncode bs)
    · exact hu
  · exact hu

theorem deserialize_serialize (cfg : SerCfg) (v : Value) :
    deserialize (serialize cfg v) = some v := by
  rcases serializeRaw_spec cfg v with h | h <;>
    rw [serialize, h, deserialize_compressStep _ _ _ (by tauto), unpackb_encVal]

theorem serialize_ne_nil (cfg : SerCfg) (v : Value) : serialize cfg v ≠ [] := by
  rw [serialize]
  unfold compressStep
  split
  · split <;> simp
  · simp

theorem valueToEntry_entryToValue (e : Entry) : valueToEntry (entryToValue e) = some e := by
  obtain ⟨v, t, a⟩ := e
  cases a <;> rfl

theorem MAX_SIZE_eq : MAX_SIZE = 104857600 := rfl

theorem GROWTH_FACTOR_eq : GROWTH_FACTOR = 2 := rfl

theorem valueToMap_mapToValue (m : PMap) : valueToMap (mapToValue m) = some m := by
  induction m with
  | nil => rfl
  | cons ke m ih =>
      obtain ⟨k, e⟩ := ke
      simp only [mapToValue, List.map_cons, valueToMap, pairsToMap] at ih ⊢
      simp [pairToEntry, valueToEntry_entryToValue, ih]

theorem writeData_ok_payload {cfg : SerCfg} {sg sg2 : Segment} {m : PMap}
    (h : writeData cfg sg m = .ok sg2) : sg2.payload = serializeMap cfg m := by
  unfold writeData at h
  split at h
  · exact absurd h (by simp)
  · exact (congrArg Segment.payload (Except.ok.inj h)).symm

/-- Coherence: a successful write is read back as the same map
(serializer round-trip through the segment). -/
theorem readData_writeData {cfg : SerCfg} {sg sg2 : Segment} {m : PMap}
    (h : writeData cfg sg m = .ok sg2) : readData sg2 = m := by
  have hp := writeData_ok_payload h
  have hne : (serializeMap cfg m).length ≠ 0 := by
    intro h0
    exact serialize_ne_nil cfg (mapToValue m) (List.length_eq_zero.mp h0)
  rw [readData, hp, if_neg hne, serializeMap, deserialize_serialize]
  simp [valueToMap_mapToValue]

theorem growLoop_ge (needed size : Nat) : size ≤ growLoop needed size := by
  induction size using growLoop.induct needed with
  | case1 size h ih =>
      rw [growLoop, dif_pos h]
      refine le_trans ?_ ih
      have hM := MAX_SIZE_eq
      simp only [GROWTH_FACTOR_eq]
      omega
  | case2 size h => rw [growLoop, dif_neg h]

theorem growLoop_le_max (needed size : Nat) (hle : size ≤ MAX_SIZE) :
    growLoop needed size ≤ MAX_SIZE := by
  induction size using growLoop.induct needed with
  | case1 size h ih =>
      rw [growLoop, dif_pos h]
      exact ih (by have hM := MAX_SIZE_eq; omega)
  | case2 size h => rw [growLoop, dif_neg h]; exact hle

theorem growLoop_post (needed size : Nat) : 0 < size →
    needed ≤ growLoop needed size ∨ MAX_SIZE ≤ growLoop needed size := by
  induction size using growLoop.induct needed with
  | case1 size h ih =>
      intro _
      rw [growLoop, dif_pos h]
      refine ih ?_
      have hM := MAX_SIZE_eq
      simp only [GROWTH_FACTOR_eq]
      omega
  | case2 size h =>
      intro hpos
      rw [growLoop, dif_neg h]
      have hM := MAX_SIZE_eq
      omega

theorem growLoop_eq_max (needed size : Nat) : 0 < size → size ≤ MAX_SIZE →
    MAX_SIZE < needed → growLoop needed size = MAX_SIZE := by
  induction size using growLoop.induct needed with
  | case1 size h ih =>
      intro _ _ hneed
      rw [growLoop, dif_pos h]
      have hM := MAX_SIZE_eq
      refine ih ?_ ?_ hneed <;>
        · simp only [GROWTH_FACTOR_eq]
          omega
  | case2 size h =>
      intro hpos hle hneed
      rw [growLoop, dif_neg h]
      have hM := MAX_SIZE_eq
      omega

theorem growLoop_capShape (needed size : Nat) (hc : CapShape size) :
    CapShape (growLoop needed size) := by
  induction size using growLoop.induct needed with
  | case1 size h ih =>
      rw [growLoop, dif_pos h]
      apply ih
      rcases hc with ⟨k, hk, _⟩ | hmax
      · by_cases h2 : size * GROWTH_FACTOR ≤ MAX_SIZE
        · have : min (size * GROWTH_FACTOR) MAX_SIZE = size * GROWTH_FACTOR :=
            min_eq_left h2
          rw [this]
          exact Or.inl ⟨k + 1, by rw [hk]; unfold GROWTH_FACTOR; ring, h2⟩
        · have : min (size * GROWTH_FACTOR) MAX_SIZE = MAX_SIZE :=
            min_eq_right (by omega)
          rw [this]
          exact Or.inr rfl
      · exact absurd h.2.1 (by omega)
  | case2 size h => rw [growLoop, dif_neg h]; exact hc

theorem capShape_pos {c : Nat} (hc : CapShape c) : 0 < c := by
  rcases hc with ⟨k, hk, _⟩ | hmax
  · rw [hk]
    have : 0 < 2 ^ k := Nat.pos_pow_of_pos k (by norm_num)
    unfold INITIAL_SIZE
    positivity
  · rw [hmax]; unfold MAX_SIZE; norm_num

theorem capShape_le_max {c : Nat} (hc : CapShape c) : c ≤ MAX_SIZE := by
  rcases hc with ⟨k, _, hle⟩ | hmax
  · exact hle
  · omega

/-- A successful `_write_data` preserves the segment invariant. -/
theorem writeData_ok_inv {cfg : SerCfg} {sg sg2 : Segment} {m : PMap}
    (hinv : SegInv sg) (h : writeData cfg sg m = .ok sg2) : SegInv sg2 := by
  obtain ⟨hcap, hfit⟩ := hinv
  have hpay := writeData_ok_payload h
  have hpos : 0 < sg.capacity := capShape_pos hcap
  unfold writeData at h
  split at h
  · exact absurd h (by simp)
  next cap heq =>
    have hc2 : sg2.capacity = cap := (congrArg Segment.capacity (Except.ok.inj h)).symm
    split at heq
    next hgt =>
      unfold expandCap at heq
      split at heq
      · exact absurd heq (by simp)
      next hnot =>
        rw [Decidable.not_and_iff_or_not] at hnot
        have hcap2 := Except.ok.inj heq
        constructor
        · rw [hc2, ← hcap2]
          exact growLoop_capShape _ _ hcap
        · rw [hpay, hc2, ← hcap2]
          rcases hnot with hlt | hle2
          · push_neg at hlt
            rcases growLoop_post ((serializeMap cfg m).length + HEADER_SIZE)
                sg.capacity hpos with hg | hm
            · exact hg
            · omega
          · omega
    next hle2 =>
      have hcc := Except.ok.inj heq
      constructor
      · rw [hc2, ← hcc]; exact hcap
      · rw [hpay, hc2, ← hcc]; omega

/-- Every reachable segment satisfies the invariant. -/
theorem reachable_inv {cfg : SerCfg} {sg : Segment} (h : ReachableSeg cfg sg) :
    SegInv sg := by
  induction h with
  | init =>
      refine ⟨Or.inl ⟨0, ?_, ?_⟩, ?_⟩ <;>
        norm_num [seg0, INITIAL_SIZE, MAX_SIZE, HEADER_SIZE]
  | step _ hw ih => exact writeData_ok_inv ih hw

/-- `_write_data` raises `MemoryFullError` exactly when the payload
plus the 16-byte header would exceed `MAX_SIZE`. -/
theorem writeData_error_iff (cfg : SerCfg) (sg : Segment) (m : PMap)
    (hinv : SegInv sg) :
    writeData cfg sg m = .error .memoryFull ↔
      MAX_SIZE < (serializeMap cfg m).length + HEADER_SIZE := by
  obtain ⟨hcap, hfit⟩ := hinv
  have hpos : 0 < sg.capacity := capShape_pos hcap
  have hle : sg.capacity ≤ MAX_SIZE := capShape_le_max hcap
  unfold writeData
  by_cases hgt : (serializeMap cfg m).length + HEADER_SIZE > sg.capacity
  · rw [if_pos hgt]
    unfold expandCap
    by_cases hbig : MAX_SIZE < (serializeMap cfg m).length + HEADER_SIZE
    · have hmax := growLoop_eq_max ((serializeMap cfg m).length + HEADER_SIZE)
        sg.capacity hpos hle hbig
      rw [if_pos (by rw [hmax]; omega)]
      simp [hbig]
    · push_neg at hbig
      have hge : (serializeMap cfg m).length + HEADER_SIZE ≤
          growLoop ((serializeMap cfg m).length + HEADER_SIZE) sg.capacity := by
        rcases growLoop_post ((serializeMap cfg m).length + HEADER_SIZE)
            sg.capacity hpos with hg | hm
        · exact hg
        · have := growLoop_le_max ((serializeMap cfg m).length + HEADER_SIZE)
            sg.capacity hle
          omega
      rw [if_neg (by omega)]
      constructor
      · intro hcontra
        exact absurd hcontra (by simp)
      · omega
  · rw [if_neg hgt]
    constructor
    · intro hcontra
      exact absurd hcontra (by simp)
    · omega

theorem INITIAL_SIZE_eq : INITIAL_SIZE = 1048576 := rfl

theorem HEADER_SIZE_eq : HEADER_SIZE = 16 := rfl

theorem alLookup_alSet_self (d : PMap) (k : String) (e : Entry) :
    alLookup (alSet d k e) k = some e := by
  induction d with
  | nil => simp [alSet, alLookup]
  | cons ke d ih =>
      obtain ⟨k2, e2⟩ := ke
      by_cases h : k2 = k
      · subst h
        simp [alSet, alLookup]
      · simp [alSet, alLookup, h, ih]

theorem alLookup_alErase_self (d : PMap) (k : String) :
    alLookup (alErase d k) k = none := by
  induction d with
  | nil => simp [alErase, alLookup]
  | cons ke d ih =>
      obtain ⟨k2, e2⟩ := ke
      by_cases h : k2 = k
      · subst h
        simpa [alErase, alLookup] using ih
      · simpa [alErase, alLookup, h] using ih

theorem alLookup_alErase_none {d : PMap} {k : String} (h : alLookup d k = none)
    (k2 : String) : alLookup (alErase d k2) k = none := by
  induction d with
  | nil => simp [alErase, alLookup]
  | cons ke d ih =>
      obtain ⟨k3, e3⟩ := ke
      rw [alLookup] at h
      by_cases h3 : k3 = k
      · rw [if_pos h3] at h
        exact absurd h (by simp)
      · rw [if_neg h3] at h
        by_cases h2 : k3 = k2
        · simpa [alErase, alLookup, h2] using ih h
        · simpa [alErase, alLookup, h2, h3] using ih h

theorem alLookup_foldl_alErase_none {k : String} :
    ∀ (l : List String) (d : PMap), alLookup d k = none →
      alLookup (l.foldl alErase d) k = none := by
  intro l
  induction l with
  | nil => intro d h; simpa using h
  | cons x l ih =>
      intro d h
      exact ih (alErase d x) (alLookup_alErase_none h x)

theorem alLookup_foldl_alErase {k : String} :
    ∀ (l : List String) (d : PMap), k ∈ l →
      alLookup (l.foldl alErase d) k = none := by
  intro l
  induction l with
  | nil => intro d h; cases h
  | cons x l ih =>
      intro d h
      rcases List.mem_cons.mp h with rfl | hmem
      · exact alLookup_foldl_alErase_none l (alErase d k) (alLookup_alErase_self d k)
      · exact ih (alErase d x) hmem

theorem alLookup_mem_pair {d : PMap} {k : String} {e : Entry}
    (h : alLookup d k = some e) : (k, e) ∈ d := by
  induction d with
  | nil => simp [alLookup] at h
  | cons ke d ih =>
      obtain ⟨k2, e2⟩ := ke
      rw [alLookup] at h
      by_cases h2 : k2 = k
      · rw [if_pos h2] at h
        subst h2
        obtain rfl := Option.some.inj h
        exact List.mem_cons_self _ _
      · rw [if_neg h2] at h
        exact List.mem_cons_of_mem _ (ih h)

theorem mem_keys_of_alLookup {d : PMap} {k : String} {e : Entry}
    (h : alLookup d k = some e) : k ∈ d.map Prod.fst :=
  List.mem_map.mpr ⟨(k, e), alLookup_mem_pair h, rfl⟩

theorem saveS_ok {cfg : PoolCfg} {s s2 : PoolState} (h : saveS cfg s = .ok s2) :
    s2.data = s.data ∧ s2.seg.payload = serializeMap cfg.ser s.data ∧
      readData s2.seg = s.data := by
  unfold saveS at h
  split at h
  next sg heq =>
    obtain rfl := Except.ok.inj h
    exact ⟨rfl, writeData_ok_payload heq, readData_writeData heq⟩
  · exact absurd h (by simp)

/-- Any segment holding a serialized map is read back as that map. -/
theorem readData_mk (cfg : SerCfg) (m : PMap) (c : Nat) :
    readData { payload := serializeMap cfg m, capacity := c } = m := by
  have hne : (serializeMap cfg m).length ≠ 0 := by
    intro h0
    exact serialize_ne_nil cfg (mapToValue m) (List.length_eq_zero.mp h0)
  rw [readData]
  rw [if_neg hne]
  show (match deserialize (serializeMap cfg m) with
    | none => [] | some v => (valueToMap v).getD []) = m
  rw [serializeMap, deserialize_serialize]
  simp [valueToMap_mapToValue]

theorem readData_seg0 : readData seg0 = [] := by
  simp [readData, seg0]

/-- A write whose payload fits needs no expansion and keeps the capacity. -/
theorem writeData_ok_of_le (cfg : SerCfg) (sg : Segment) (m : PMap)
    (h : (serializeMap cfg m).length + HEADER_SIZE ≤ sg.capacity) :
    writeData cfg sg m = .ok ⟨serializeMap cfg m, sg.capacity⟩ := by
  unfold writeData
  rw [if_neg (by omega)]

/-- The framing/compression step adds one byte and never grows the
format payload. -/
theorem serialize_le (cfg : SerCfg) (v : Value) :
    (serialize cfg v).length ≤ 1 + (encVal v).length := by
  rcases serializeRaw_spec cfg v with h | h <;>
    · rw [serialize, h]
      unfold compressStep
      dsimp only
      split
      · split <;> (simp only [List.length_cons]; omega)
      · simp only [List.length_cons]; omega

theorem string_toNat_length (s : String) : (s.toList.map Char.toNat).length = s.length := by
  rw [List.length_map]
  rfl

/-- Size of a one-record map's encoding (before framing). -/
theorem encVal_single_le (k : String) (e : Entry) :
    (encVal (mapToValue [(k, e)])).length ≤ 40 + k.length + (encVal e.value).length := by
  have l2 : (("value" : String).toList.map Char.toNat).length = 5 := rfl
  have l3 : (("timestamp" : String).toList.map Char.toNat).length = 9 := rfl
  have l4 : (("auto_clean" : String).toList.map Char.toNat).length = 10 := rfl
  obtain ⟨v, t, a⟩ := e
  cases a <;>
    · simp [mapToValue, entryToValue, optIntToValue, encVal, encPairs, encList,
        l2, l3, l4, string_toNat_length]
      omega

/-- A `set` under no encryption whose new payload fits: explicit result. -/
theorem setOp_ok (cfg : PoolCfg) (now : Int) (s : PoolState) (k : String) (v : Value)
    (a : Option Int) (henc : cfg.encryption = false)
    (hfit : (serializeMap cfg.ser (alSet (readData s.seg) k ⟨v, now, a⟩)).length +
      HEADER_SIZE ≤ s.seg.capacity) :
    setOp cfg now s k v a =
      (.ok (), { data := alSet (readData s.seg) k ⟨v, now, a⟩,
                 seg := ⟨serializeMap cfg.ser (alSet (readData s.seg) k ⟨v, now, a⟩),
                        s.seg.capacity⟩ }) := by
  simp only [setOp, refreshS, saveS, henc, Bool.false_eq_true, if_false,
    writeData_ok_of_le _ _ _ hfit]

/-- C2: for every value representable in the compact (msgpack) format,
`deserialize (serialize v) = v`; values that take the pickle fallback
(those containing host objects) also round-trip to an equal value, for
every `compress_threshold` setting and whether or not msgpack is
preferred — compression included. -/
theorem claim_C2 (cfg : SerCfg) (v : Value) :
    deserialize (serialize cfg v) = some v :=
  deserialize_serialize cfg v

/-- C8: with `compress_threshold = T ≥ 0` a raw payload of length
exactly `T` is left uncompressed; length `T + 1` triggers a compression
attempt kept (with the `0x80` header bit) only when strictly smaller
and discarded otherwise; `T = -1` never compresses. -/
theorem claim_C8 (cfg : SerCfg) (v : Value) :
    (0 ≤ cfg.compress_threshold →
      ((serializeRaw cfg v).1.length : Int) = cfg.compress_threshold →
      serialize cfg v = (serializeRaw cfg v).2 :: (serializeRaw cfg v).1) ∧
    (0 ≤ cfg.compress_threshold →
      ((serializeRaw cfg v).1.length : Int) = cfg.compress_threshold + 1 →
      serialize cfg v =
        (if (rleEncode (serializeRaw cfg v).1).length < (serializeRaw cfg v).1.length
         then ((serializeRaw cfg v).2 ||| COMPRESSED_FLAG) :: rleEncode (serializeRaw cfg v).1
         else (serializeRaw cfg v).2 :: (serializeRaw cfg v).1)) ∧
    (cfg.compress_threshold = -1 →
      serialize cfg v = (serializeRaw cfg v).2 :: (serializeRaw cfg v).1) := by
  refine ⟨?_, ?_, ?_⟩
  · intro hth hlen
    rw [serialize, compressStep, if_neg (by omega)]
  · intro hth hlen
    rw [serialize, compressStep, if_pos ⟨hth, by omega⟩]
  · intro hth
    rw [serialize, compressStep, if_neg (by omega)]

/-- C8 witness: the three regimes at concrete inputs.  `encVal .nil`
has raw length 1: threshold 1 leaves it alone; threshold 0 triggers an
attempt, which doubles the payload (`rleEncode [0] = [1, 0]`) and is
discarded; threshold −1 never compresses. -/
theorem claim_C8_witness :
    serialize { use_msgpack := true, compress_threshold := 1 } .nil =
      [MSGPACK_HEADER, 0] ∧
    serialize { use_msgpack := true, compress_threshold := 0 } .nil =
      [MSGPACK_HEADER, 0] ∧
    serialize { use_msgpack := true, compress_threshold := -1 } .nil =
      [MSGPACK_HEADER, 0] := by
  have hraw : ∀ th : Int, serializeRaw { use_msgpack := true, compress_threshold := th }
      .nil = ([0], MSGPACK_HEADER) := by
    intro th
    simp [serializeRaw, packb, msgpackable, encVal]
  refine ⟨?_, ?_, ?_⟩
  · have h := (claim_C8 { use_msgpack := true, compress_threshold := 1 } .nil).1
    rw [hraw] at h
    simpa using h (by norm_num) (by norm_num)
  · have h := (claim_C8 { use_msgpack := true, compress_threshold := 0 } .nil).2.1
    rw [hraw] at h
    have h2 := h (by norm_num) (by norm_num)
    rw [h2]
    simp [rleEncode, rleRun]
  · have h := (claim_C8 { use_msgpack := true, compress_threshold := -1 } .nil).2.2
    rw [hraw] at h
    simpa using h rfl

/-- C3 amended: a decode failure is treated as the empty map at once —
the read is performed exactly once per refresh and is never retried, so
the failing snapshot alone determines the (empty) result. -/
theorem claim_C3 (sg : Segment) (snaps : List Segment)
    (hfail : decodeFails sg = true) :
    refreshSnaps (sg :: snaps) = ([], snaps) := by
  rw [decodeFails, Bool.and_eq_true] at hfail
  obtain ⟨hne, hnone⟩ := hfail
  have hd : deserialize sg.payload = none := Option.isNone_iff_eq_none.mp hnone
  rw [refreshSnaps, readData]
  rw [if_neg (by simpa using hne)]
  rw [hd]

/-- C3 witness: on the torn snapshot the single read yields the empty
map, whatever a re-read would have produced. -/
theorem claim_C3_witness : refreshSnaps [tornSeg, goodSeg] = ([], [goodSeg]) :=
  claim_C3 tornSeg [goodSeg] (by
    simp [decodeFails, tornSeg, deserialize, unpackb, loads, COMPRESSED_FLAG,
      MSGPACK_HEADER, decVal])

/-- C3 counterexample: the claim says a single transient decode failure
followed by a successful re-read yields the decoded map; the code's
read path consumes only the first snapshot and yields the empty map,
while the spec's retry policy would have returned `goodMap ≠ []`. -/
theorem claim_C3_counterexample :
    refreshSnaps [tornSeg, goodSeg] ≠ refreshRetrySpec [tornSeg, goodSeg] ∧
    refreshRetrySpec [tornSeg, goodSeg] = (goodMap, []) ∧
    refreshSnaps [tornSeg, goodSeg] = ([], [goodSeg]) ∧
    goodMap ≠ [] := by
  have hfail : decodeFails tornSeg = true := by
    simp [decodeFails, tornSeg, deserialize, unpackb, loads, COMPRESSED_FLAG,
      MSGPACK_HEADER, decVal]
  have hgoodRead : readData goodSeg = goodMap := readData_mk cfg0.ser goodMap INITIAL_SIZE
  have hgoodOk : decodeFails goodSeg = false := by
    rw [decodeFails]
    have : deserialize goodSeg.payload = some (mapToValue goodMap) := by
      show deserialize (serializeMap cfg0.ser goodMap) = _
      rw [serializeMap, deserialize_serialize]
    simp [this]
  have htorn : readData tornSeg = [] := by
    rw [readData]
    rw [if_neg (by simp [tornSeg])]
    have : deserialize tornSeg.payload = none := by
      simp [tornSeg, deserialize, unpackb, loads, COMPRESSED_FLAG, MSGPACK_HEADER, decVal]
    rw [this]
  have hspec : refreshRetrySpec [tornSeg, goodSeg] = (goodMap, []) := by
    rw [refreshRetrySpec, if_pos hfail]
    rw [hgoodOk]
    simp [hgoodRead]
  have hcode : refreshSnaps [tornSeg, goodSeg] = ([], [goodSeg]) := by
    rw [refreshSnaps, htorn]
  refine ⟨?_, hspec, hcode, by simp [goodMap]⟩
  rw [hspec, hcode]
  simp [goodMap]

/-- C1: in a pool without encryption, after a successful
`set(k, v)` with no ttl, `get(k)` returns `v` (at any later instant);
after a completed `delete(k)`, `get(k)` returns `None`. -/
theorem claim_C1 (cfg : PoolCfg) (now now2 : Int) (s : PoolState) (k : String)
    (v : Value) (henc : cfg.encryption = false) :
    (∀ s2, setOp cfg now s k v none = (.ok (), s2) →
      (getOp cfg now2 s2 k).1 = .ok v) ∧
    (∀ b s2, deleteOp cfg s k = (.ok b, s2) →
      (getOp cfg now2 s2 k).1 = .ok .nil) := by
  constructor
  · intro s2 hset
    simp only [setOp, refreshS, henc, Bool.false_eq_true, if_false] at hset
    split at hset
    next s3 heq =>
      simp only [Prod.mk.injEq] at hset
      obtain ⟨-, rfl⟩ := hset
      obtain ⟨hdata, hpay, hread⟩ := saveS_ok heq
      simp only [getOp, refreshS, hread, alLookup_alSet_self]
      simp [entryExpired, henc]
    next e heq => simp at hset
  · intro b s2 hdel
    simp only [deleteOp, refreshS] at hdel
    split at hdel
    next hsome =>
      split at hdel
      next s3 heq =>
        simp only [Prod.mk.injEq] at hdel
        obtain ⟨-, rfl⟩ := hdel
        obtain ⟨hdata, hpay, hread⟩ := saveS_ok heq
        simp only [getOp, refreshS, hread, alLookup_alErase_self]
      next e heq => simp at hdel
    next hnone =>
      simp only [Prod.mk.injEq] at hdel
      obtain ⟨-, rfl⟩ := hdel
      have hln : alLookup (readData s.seg) k = none := by
        cases hl : alLookup (readData s.seg) k with
        | none => rfl
        | some e => rw [hl] at hnone; simp at hnone
      simp only [getOp, refreshS, hln]

/-- C1 witness: set then get on a fresh pool returns the value; delete
then get returns `None`. -/
theorem claim_C1_witness :
    (getOp cfg0 0 (setOp cfg0 0 p0 "k" (.int 42) none).2 "k").1 = .ok (.int 42) ∧
    (getOp cfg0 0 (deleteOp cfg0 p0 "k").2 "k").1 = .ok .nil := by
  have hfit : (serializeMap cfg0.ser
      (alSet (readData p0.seg) "k" ⟨.int 42, 0, none⟩)).length +
        HEADER_SIZE ≤ p0.seg.capacity := by
    have h1 := serialize_le cfg0.ser
      (mapToValue (alSet (readData p0.seg) "k" ⟨.int 42, 0, none⟩))
    have h2 := encVal_single_le "k" ⟨.int 42, 0, none⟩
    have h3 : readData p0.seg = [] := readData_seg0
    rw [h3] at h1 ⊢
    have h4 : alSet [] "k" (⟨.int 42, 0, none⟩ : Entry) = [("k", ⟨.int 42, 0, none⟩)] := rfl
    rw [h4] at h1 ⊢
    have h5 : (encVal (Value.int 42)).length = 2 := by simp [encVal]
    have h6 : ("k" : String).length = 1 := rfl
    rw [h5, h6] at h2
    show _ + HEADER_SIZE ≤ INITIAL_SIZE
    rw [HEADER_SIZE_eq, INITIAL_SIZE_eq]
    rw [serializeMap]
    omega
  have hset := setOp_ok cfg0 0 p0 "k" (.int 42) none rfl hfit
  have hln : alLookup (readData p0.seg) "k" = none := by
    show alLookup (readData seg0) "k" = none
    rw [readData_seg0]
    rfl
  have hd : deleteOp cfg0 p0 "k" = (.ok false, refreshS p0) := by
    simp [deleteOp, refreshS, hln]
  constructor
  · exact (claim_C1 cfg0 0 0 p0 "k" (.int 42) rfl).1 _ (by rw [hset])
  · exact (claim_C1 cfg0 0 0 p0 "k" (.int 42) rfl).2 false _ (by rw [hd])

/-- C10: storing `None` is indistinguishable from absence at the read
interface — after `set(k, None)` the record is present in the map, yet
`get(k)` returns `None` and `exists(k)` returns false, while a
completed `delete(k)` still returns true. -/
theorem claim_C10 (cfg : PoolCfg) (now now2 : Int) (s : PoolState) (k : String)
    (henc : cfg.encryption = false) :
    ∀ s2, setOp cfg now s k .nil none = (.ok (), s2) →
      (∃ e, alLookup s2.data k = some e) ∧
      (getOp cfg now2 s2 k).1 = .ok .nil ∧
      (existsOp cfg now2 s2 k).1 = .ok false ∧
      (∀ b s3, deleteOp cfg s2 k = (.ok b, s3) → b = true) := by
  intro s2 hset
  simp only [setOp, refreshS, henc, Bool.false_eq_true, if_false] at hset
  split at hset
  next s3 heq =>
    simp only [Prod.mk.injEq] at hset
    obtain ⟨-, hs⟩ := hset
    rw [← hs]
    obtain ⟨hdata, hpay, hread⟩ := saveS_ok heq
    have hget : getOp cfg now2 s3 k = (.ok .nil, refreshS s3) := by
      simp only [getOp, refreshS, hread, alLookup_alSet_self]
      simp [entryExpired, henc]
    refine ⟨?_, ?_, ?_, ?_⟩
    · rw [hdata]
      exact ⟨_, alLookup_alSet_self _ _ _⟩
    · rw [hget]
    · rw [existsOp, hget]
    · intro b s4 hdel
      simp only [deleteOp, refreshS, hread, alLookup_alSet_self, Option.isSome_some,
        if_true] at hdel
      split at hdel
      next s5 heq2 =>
        simp only [Prod.mk.injEq] at hdel
        exact (Except.ok.inj hdel.1).symm
      next e2 heq2 => simp at hdel
  next e heq => simp at hset

/-- C10 witness: `set("k", None)` on a fresh pool leaves a present
record that reads as absent. -/
theorem claim_C10_witness :
    (∃ e, alLookup (setOp cfg0 0 p0 "k" .nil none).2.data "k" = some e) ∧
    (getOp cfg0 0 (setOp cfg0 0 p0 "k" .nil none).2 "k").1 = .ok .nil ∧
    (existsOp cfg0 0 (setOp cfg0 0 p0 "k" .nil none).2 "k").1 = .ok false := by
  have hfit : (serializeMap cfg0.ser
      (alSet (readData p0.seg) "k" ⟨.nil, 0, none⟩)).length +
        HEADER_SIZE ≤ p0.seg.capacity := by
    have h1 := serialize_le cfg0.ser
      (mapToValue (alSet (readData p0.seg) "k" ⟨.nil, 0, none⟩))
    have h2 := encVal_single_le "k" ⟨.nil, 0, none⟩
    have h3 : readData p0.seg = [] := readData_seg0
    rw [h3] at h1 ⊢
    have h4 : alSet [] "k" (⟨.nil, 0, none⟩ : Entry) = [("k", ⟨.nil, 0, none⟩)] := rfl
    rw [h4] at h1 ⊢
    have h5 : (encVal Value.nil).length = 1 := by simp [encVal]
    have h6 : ("k" : String).length = 1 := rfl
    rw [h5, h6] at h2
    show _ + HEADER_SIZE ≤ INITIAL_SIZE
    rw [HEADER_SIZE_eq, INITIAL_SIZE_eq]
    rw [serializeMap]
    omega
  have hset := setOp_ok cfg0 0 p0 "k" .nil none rfl hfit
  have h := claim_C10 cfg0 0 0 p0 "k" rfl _ (by rw [hset])
  exact ⟨h.1, h.2.1, h.2.2.1⟩

/-- C7: a record with ttl `tc > 0` written at `t0` is reported absent
by any `get`/`exists` at an instant strictly past `t0 + tc`, and that
access deletes it from the map and writes the shrunken map back. -/
theorem claim_C7 (cfg : PoolCfg) (now t0 tc : Int) (s : PoolState) (k : String)
    (v : Value)
    (hlook : alLookup (readData s.seg) k = some ⟨v, t0, some tc⟩)
    (htau : 0 < tc) (hnow : t0 + tc < now) :
    (∀ r s2, getOp cfg now s k = (.ok r, s2) →
      r = .nil ∧ alLookup s2.data k = none ∧
        readData s2.seg = alErase (readData s.seg) k) ∧
    (∀ b s2, existsOp cfg now s k = (.ok b, s2) → b = false) := by
  have hexp : entryExpired now ⟨v, t0, some tc⟩ = true := by
    simp only [entryExpired]
    simp only [Bool.and_eq_true, decide_eq_true_eq]
    omega
  have hmain : ∀ r s2, getOp cfg now s k = (.ok r, s2) →
      r = .nil ∧ alLookup s2.data k = none ∧
        readData s2.seg = alErase (readData s.seg) k := by
    intro r s2 hget
    simp only [getOp, refreshS, hlook, hexp, if_true] at hget
    split at hget
    next s3 heq =>
      simp only [Prod.mk.injEq] at hget
      obtain ⟨hr, rfl⟩ := hget
      obtain ⟨hdata, hpay, hread⟩ := saveS_ok heq
      refine ⟨(Except.ok.inj hr).symm, ?_, ?_⟩
      · rw [hdata]
        exact alLookup_alErase_self _ _
      · rw [hread]
    next e heq => simp at hget
  refine ⟨hmain, ?_⟩
  intro b s2 hex
  rw [existsOp] at hex
  split at hex
  next v2 s3 heq =>
    obtain ⟨hr, -, -⟩ := hmain v2 s3 heq
    subst hr
    simp only [Prod.mk.injEq] at hex
    exact (Except.ok.inj hex.1).symm
  next e s3 heq => simp at hex

/-- C7 witness: a ttl-1 record written at instant 0, accessed at
instant 3. -/
theorem claim_C7_witness :
    (getOp cfg0 3 pE "k").1 = .ok .nil ∧
    alLookup (getOp cfg0 3 pE "k").2.data "k" = none ∧
    (existsOp cfg0 3 pE "k").1 = .ok false := by
  have hlook : alLookup (readData pE.seg) "k" = some ⟨.int 5, 0, some 1⟩ := by
    have h := readData_mk cfg0.ser [("k", entE)] INITIAL_SIZE
    show alLookup (readData segE) "k" = _
    rw [show readData segE = [("k", entE)] from h]
    rfl
  have h := claim_C7 cfg0 3 0 1 pE "k" (.int 5) hlook (by norm_num) (by norm_num)
  -- the expiry write (an empty map) always fits, so the get completes
  have hfit : (serializeMap cfg0.ser (alErase (readData pE.seg) "k")).length +
      HEADER_SIZE ≤ pE.seg.capacity := by
    have h3 : readData pE.seg = [("k", entE)] := readData_mk cfg0.ser _ _
    rw [h3]
    have h4 : alErase [("k", entE)] "k" = [] := rfl
    rw [h4]
    have h1 := serialize_le cfg0.ser (mapToValue [])
    have h5 : (encVal (mapToValue ([] : PMap))).length = 2 := by
      simp [mapToValue, encVal, encPairs]
    rw [h5] at h1
    show _ + HEADER_SIZE ≤ INITIAL_SIZE
    rw [HEADER_SIZE_eq, INITIAL_SIZE_eq]
    rw [serializeMap]
    omega
  have hexp : entryExpired 3 (⟨.int 5, 0, some 1⟩ : Entry) = true := by
    simp only [entryExpired]
    simp only [Bool.and_eq_true, decide_eq_true_eq]
    omega
  have hs2 : getOp cfg0 3 pE "k" =
      (.ok .nil, { data := alErase (readData pE.seg) "k",
                   seg := ⟨serializeMap cfg0.ser (alErase (readData pE.seg) "k"),
                          pE.seg.capacity⟩ }) := by
    simp only [getOp, refreshS, hlook, hexp, if_true, saveS,
      writeData_ok_of_le _ _ _ hfit]
  obtain ⟨hr, hnone, hseg⟩ := h.1 _ _ hs2
  have hex : existsOp cfg0 3 pE "k" =
      (.ok false, { data := alErase (readData pE.seg) "k",
                    seg := ⟨serializeMap cfg0.ser (alErase (readData pE.seg) "k"),
                           pE.seg.capacity⟩ }) := by
    rw [existsOp, hs2]
  exact ⟨by rw [hs2], by rw [hs2]; exact hnone, by rw [hex]⟩

/-- C9 (implicit): `size`, `all_keys` and `keys_with_prefix` do not
filter expired records — an expired record is still counted and its key
still listed — whereas `cleanup_expired` does remove it from the map. -/
theorem claim_C9 (cfg : PoolCfg) (now : Int) (s : PoolState) (k : String)
    (v : Value) (t0 tc : Int) (pre : String)
    (hlook : alLookup (readData s.seg) k = some ⟨v, t0, some tc⟩)
    (htau : 0 < tc) (hexp : t0 + tc < now) :
    k ∈ (allKeys s).1 ∧
    (sizeOp s).1 = (readData s.seg).length ∧
    (k.startsWith pre = true → k ∈ (keysWithPre s pre).1) ∧
    (∀ r s2, cleanupExpired cfg now s = (r, s2) → alLookup s2.data k = none) := by
  have hexpired : entryExpired now ⟨v, t0, some tc⟩ = true := by
    simp only [entryExpired]
    simp only [Bool.and_eq_true, decide_eq_true_eq]
    omega
  have hmem : k ∈ (readData s.seg).map Prod.fst := mem_keys_of_alLookup hlook
  refine ⟨?_, ?_, ?_, ?_⟩
  · simpa [allKeys, refreshS] using hmem
  · simp [sizeOp, refreshS]
  · intro hsw
    simp only [keysWithPre, refreshS]
    exact List.mem_filter.mpr ⟨hmem, hsw⟩
  · intro r s2 hcl
    have hin : k ∈ ((readData s.seg).filter fun ke => entryExpired now ke.2).map Prod.fst := by
      refine List.mem_map.mpr ⟨(k, ⟨v, t0, some tc⟩), ?_, rfl⟩
      exact List.mem_filter.mpr ⟨alLookup_mem_pair hlook, hexpired⟩
    simp only [cleanupExpired] at hcl
    rw [if_neg (by
      intro hemp
      rw [List.isEmpty_iff] at hemp
      rw [hemp] at hin
      simp at hin)] at hcl
    split at hcl
    next sg heq =>
      simp only [Prod.mk.injEq] at hcl
      obtain ⟨-, rfl⟩ := hcl
      exact alLookup_foldl_alErase _ _ hin
    next e heq =>
      simp only [Prod.mk.injEq] at hcl
      obtain ⟨-, rfl⟩ := hcl
      exact alLookup_foldl_alErase _ _ hin

/-- C9 witness: the expired ttl-1 record of `pE` is still listed and
counted, and `cleanup_expired` removes it. -/
theorem claim_C9_witness :
    "k" ∈ (allKeys pE).1 ∧
    (sizeOp pE).1 = (readData pE.seg).length ∧
    "k" ∈ (keysWithPre pE "").1 ∧
    alLookup (cleanupExpired cfg0 3 pE).2.data "k" = none := by
  have hlook : alLookup (readData pE.seg) "k" = some ⟨.int 5, 0, some 1⟩ := by
    have h := readData_mk cfg0.ser [("k", entE)] INITIAL_SIZE
    show alLookup (readData segE) "k" = _
    rw [show readData segE = [("k", entE)] from h]
    rfl
  have h := claim_C9 cfg0 3 pE "k" (.int 5) 0 1 "" hlook (by norm_num) (by norm_num)
  have hsw : "k".startsWith "" = true := by
    simp [String.startsWith, Substring.take, Substring.nextn, Substring.extract,
      String.toSubstring, BEq.beq, Substring.beq, Substring.bsize, String.substrEq,
      String.substrEq.loop]
  exact ⟨h.1, h.2.1, h.2.2.1 hsw, h.2.2.2 _ _ rfl⟩

/-- Exact serialized size of a one-record map holding an `n`-byte
string under the no-compression serializer: framing byte + 42 bytes of
structure + the payload bytes. -/
theorem serializeMap_bin_len (n b : Nat) :
    (serializeMap cfgNC [("k", ⟨.bin (List.replicate n b), 0, none⟩)]).length =
      n + 43 := by
  have l1 : (("k" : String).toList.map Char.toNat).length = 1 := rfl
  have l2 : (("value" : String).toList.map Char.toNat).length = 5 := rfl
  have l3 : (("timestamp" : String).toList.map Char.toNat).length = 9 := rfl
  have l4 : (("auto_clean" : String).toList.map Char.toNat).length = 10 := rfl
  have hmp : msgpackable
      (mapToValue [("k", ⟨.bin (List.replicate n b), 0, none⟩)]) = true := rfl
  simp only [serializeMap, serialize, serializeRaw, cfgNC, packb, hmp, if_true,
    compressStep]
  rw [if_neg (by rintro ⟨h0, -⟩; norm_num at h0)]
  simp [mapToValue, entryToValue, optIntToValue, encVal, encPairs, encList,
    encInt, l1, l2, l3, l4]

theorem growLoop_cex : growLoop 67108923 1048576 = 104857600 := by
  rw [growLoop]
  norm_num [MAX_SIZE, GROWTH_FACTOR, Nat.min_def]
  rw [growLoop]
  norm_num [MAX_SIZE, GROWTH_FACTOR, Nat.min_def]
  rw [growLoop]
  norm_num [MAX_SIZE, GROWTH_FACTOR, Nat.min_def]
  rw [growLoop]
  norm_num [MAX_SIZE, GROWTH_FACTOR, Nat.min_def]
  rw [growLoop]
  norm_num [MAX_SIZE, GROWTH_FACTOR, Nat.min_def]
  rw [growLoop]
  norm_num [MAX_SIZE, GROWTH_FACTOR, Nat.min_def]
  rw [growLoop]
  norm_num [MAX_SIZE, GROWTH_FACTOR, Nat.min_def]
  rw [growLoop]
  norm_num [MAX_SIZE, GROWTH_FACTOR, Nat.min_def]

/-- A write needing expansion, with the outcome left symbolic: the
doubling loop runs and the error test is negative. -/
theorem writeData_expand_ok (cfg : SerCfg) (sg : Segment) (m : PMap)
    (hgt : sg.capacity < (serializeMap cfg m).length + HEADER_SIZE)
    (hok : ¬(growLoop ((serializeMap cfg m).length + HEADER_SIZE) sg.capacity ≥ MAX_SIZE ∧
      (serializeMap cfg m).length + HEADER_SIZE >
        growLoop ((serializeMap cfg m).length + HEADER_SIZE) sg.capacity)) :
    writeData cfg sg m = .ok ⟨serializeMap cfg m,
      growLoop ((serializeMap cfg m).length + HEADER_SIZE) sg.capacity⟩ := by
  unfold writeData expandCap
  rw [if_pos hgt, if_neg hok]

/-- `set` under no encryption, with the write's outcome left symbolic. -/
theorem setOp_of_writeData (cfg : PoolCfg) (now : Int) (s : PoolState) (k : String)
    (v : Value) (a : Option Int) (henc : cfg.encryption = false)
    (res : Except MemErr Segment)
    (hw : writeData cfg.ser s.seg (alSet (readData s.seg) k ⟨v, now, a⟩) = res) :
    setOp cfg now s k v a =
      (match res with
       | .ok sg => (.ok (), { data := alSet (readData s.seg) k ⟨v, now, a⟩, seg := sg })
       | .error e =>
          (.error e, { data := alSet (readData s.seg) k ⟨v, now, a⟩, seg := s.seg })) := by
  simp only [setOp, refreshS, saveS, henc, Bool.false_eq_true, if_false, hw]
  cases res <;> rfl

/-- Writing the 64 MiB record into a fresh segment succeeds and clamps
the capacity at `MAX_SIZE`. -/
theorem writeData_big :
    writeData cfgNC seg0 [("k", ⟨.bin (List.replicate 67108864 0), 0, none⟩)] =
      .ok ⟨serializeMap cfgNC [("k", ⟨.bin (List.replicate 67108864 0), 0, none⟩)],
           104857600⟩ := by
  have h := writeData_expand_ok cfgNC seg0
    [("k", ⟨.bin (List.replicate 67108864 0), 0, none⟩)]
    (by rw [serializeMap_bin_len, HEADER_SIZE_eq]; norm_num [seg0, INITIAL_SIZE])
    (by
      rw [serializeMap_bin_len, HEADER_SIZE_eq,
        show seg0.capacity = 1048576 from rfl,
        show (67108864 : Nat) + 43 + 16 = 67108923 from by norm_num, growLoop_cex]
      rintro ⟨-, h2⟩
      norm_num at h2)
  rw [serializeMap_bin_len, HEADER_SIZE_eq,
    show seg0.capacity = 1048576 from rfl,
    show (67108864 : Nat) + 43 + 16 = 67108923 from by norm_num, growLoop_cex] at h
  exact h

/-- Writing the 128 MiB record must expand past `MAX_SIZE` and raises
`MemoryFullError`. -/
theorem writeData_huge_err :
    writeData cfgNC seg0 [("k", ⟨.bin (List.replicate 134217728 0), 0, none⟩)] =
      .error .memoryFull := by
  rw [writeData_error_iff cfgNC seg0 _ (reachable_inv (@ReachableSeg.init cfgNC))]
  rw [serializeMap_bin_len, MAX_SIZE_eq, HEADER_SIZE_eq]
  norm_num

/-- C4 amended: after a successful `set` the header capacity covers the
written payload plus the 16-byte header, and it is `INITIAL_SIZE · 2^k`
for some `k ≥ 0` **or the clamp value `MAX_SIZE` itself** (the original
claim omits the clamp case, refuted by `claim_C4_counterexample`). -/
theorem claim_C4 (cfg : PoolCfg) (now : Int) (s : PoolState) (k : String)
    (v : Value) (a : Option Int) (s2 : PoolState)
    (hreach : ReachableSeg cfg.ser s.seg)
    (hset : setOp cfg now s k v a = (.ok (), s2)) :
    (serializeMap cfg.ser s2.data).length + HEADER_SIZE ≤ s2.seg.capacity ∧
    s2.seg.payload = serializeMap cfg.ser s2.data ∧
    ((∃ kk, s2.seg.capacity = INITIAL_SIZE * 2 ^ kk) ∨
      s2.seg.capacity = MAX_SIZE) := by
  simp only [setOp, refreshS] at hset
  split at hset
  next s3 heq =>
    simp only [Prod.mk.injEq] at hset
    obtain ⟨-, hs⟩ := hset
    rw [← hs]
    unfold saveS at heq
    split at heq
    next sg heqw =>
      obtain rfl := Except.ok.inj heq
      have hinv := writeData_ok_inv (reachable_inv hreach) heqw
      obtain ⟨hcap, hfit⟩ := hinv
      have hpay := writeData_ok_payload heqw
      refine ⟨?_, hpay, ?_⟩
      · rw [hpay] at hfit
        exact hfit
      · rcases hcap with ⟨kk, hk, -⟩ | hm
        · exact Or.inl ⟨kk, hk⟩
        · exact Or.inr hm
    next heqw => exact absurd heq (by simp)
  next e heq => simp at hset

/-- C4 witness: a small successful `set` on a fresh pool satisfies the
amended capacity shape. -/
theorem claim_C4_witness :
    (serializeMap cfg0.ser (setOp cfg0 0 p0 "k" (.int 7) none).2.data).length +
      HEADER_SIZE ≤ (setOp cfg0 0 p0 "k" (.int 7) none).2.seg.capacity ∧
    ((∃ kk, (setOp cfg0 0 p0 "k" (.int 7) none).2.seg.capacity =
        INITIAL_SIZE * 2 ^ kk) ∨
      (setOp cfg0 0 p0 "k" (.int 7) none).2.seg.capacity = MAX_SIZE) := by
  have hfit : (serializeMap cfg0.ser
      (alSet (readData p0.seg) "k" ⟨.int 7, 0, none⟩)).length +
        HEADER_SIZE ≤ p0.seg.capacity := by
    have h1 := serialize_le cfg0.ser
      (mapToValue (alSet (readData p0.seg) "k" ⟨.int 7, 0, none⟩))
    have h2 := encVal_single_le "k" ⟨.int 7, 0, none⟩
    have h3 : readData p0.seg = [] := readData_seg0
    rw [h3] at h1 ⊢
    have h4 : alSet [] "k" (⟨.int 7, 0, none⟩ : Entry) = [("k", ⟨.int 7, 0, none⟩)] := rfl
    rw [h4] at h1 ⊢
    have h5 : (encVal (Value.int 7)).length = 2 := by simp [encVal]
    have h6 : ("k" : String).length = 1 := rfl
    rw [h5, h6] at h2
    show _ + HEADER_SIZE ≤ INITIAL_SIZE
    rw [HEADER_SIZE_eq, INITIAL_SIZE_eq]
    rw [serializeMap]
    omega
  have hset := setOp_ok cfg0 0 p0 "k" (.int 7) none rfl hfit
  have h := claim_C4 cfg0 0 p0 "k" (.int 7) none
    (setOp cfg0 0 p0 "k" (.int 7) none).2 ReachableSeg.init (by rw [hset])
  exact ⟨h.1, h.2.2⟩

/-- C4 counterexample: on a fresh pool, setting a 64 MiB value succeeds
with header capacity `104857600` = 100 MiB = `MAX_SIZE`, which is not
`INITIAL_SIZE · 2^k` for any `k` (100 is not a power of two) — so the
claim as stated fails. -/
theorem claim_C4_counterexample :
    (setOp cfgPNC 0 p0 "k" (.bin (List.replicate 67108864 0)) none).1 = .ok () ∧
    (setOp cfgPNC 0 p0 "k"
      (.bin (List.replicate 67108864 0)) none).2.seg.capacity = 104857600 ∧
    ¬ ∃ kk : Nat, (104857600 : Nat) = INITIAL_SIZE * 2 ^ kk := by
  have hw : writeData cfgPNC.ser p0.seg
      (alSet (readData p0.seg) "k" ⟨.bin (List.replicate 67108864 0), 0, none⟩) =
      .ok ⟨serializeMap cfgNC [("k", ⟨.bin (List.replicate 67108864 0), 0, none⟩)],
           104857600⟩ := by
    show writeData cfgNC seg0
      (alSet (readData seg0) "k" ⟨.bin (List.replicate 67108864 0), 0, none⟩) = _
    rw [readData_seg0]
    exact writeData_big
  have hset := setOp_of_writeData cfgPNC 0 p0 "k"
    (.bin (List.replicate 67108864 0)) none rfl _ hw
  refine ⟨by rw [hset], by rw [hset], ?_⟩
  rintro ⟨kk, hk⟩
  rw [INITIAL_SIZE_eq] at hk
  rcases le_or_lt kk 6 with h | h
  · interval_cases kk <;> norm_num at hk
  · have h2 : (2 : Nat) ^ 7 ≤ 2 ^ kk := Nat.pow_le_pow_right (by norm_num) h
    norm_num at h2
    omega

/-- C5: on any reachable segment, `_write_data` raises
`MemoryFullError` exactly when the serialized whole-map payload plus
the 16-byte header exceeds `MAX_SIZE` (so a payload of `MAX_SIZE − 16`
bytes succeeds and one of `MAX_SIZE − 15` bytes fails). -/
theorem claim_C5 (cfg : SerCfg) (sg : Segment) (m : PMap)
    (hreach : ReachableSeg cfg sg) :
    writeData cfg sg m = .error .memoryFull ↔
      MAX_SIZE < (serializeMap cfg m).length + HEADER_SIZE :=
  writeData_error_iff cfg sg m (reachable_inv hreach)

/-- C5 witness: a tiny map write does not raise; the 128 MiB record
write raises. -/
theorem claim_C5_witness :
    ¬ writeData cfg0.ser seg0 [] = .error .memoryFull ∧
    writeData cfgNC seg0 [("k", ⟨.bin (List.replicate 134217728 0), 0, none⟩)] =
      .error .memoryFull := by
  constructor
  · intro h
    have h2 := (claim_C5 cfg0.ser seg0 [] ReachableSeg.init).mp h
    have h3 := serialize_le cfg0.ser (mapToValue [])
    have h5 : (encVal (mapToValue ([] : PMap))).length = 2 := by
      simp [mapToValue, encVal, encPairs]
    rw [h5] at h3
    rw [MAX_SIZE_eq, HEADER_SIZE_eq, serializeMap] at h2
    omega
  · refine (claim_C5 cfgNC seg0 _ ReachableSeg.init).mpr ?_
    rw [serializeMap_bin_len, MAX_SIZE_eq, HEADER_SIZE_eq]
    norm_num

/-- C6: when `set`, `delete` or `cleanup_expired` fails with
`MemoryFullError` during expansion, the segment (header and payload) is
exactly as it was before the operation began. -/
theorem claim_C6 (cfg : PoolCfg) (now : Int) (s : PoolState) (k : String)
    (v : Value) (a : Option Int) :
    (∀ e s2, setOp cfg now s k v a = (.error e, s2) → s2.seg = s.seg) ∧
    (∀ e s2, deleteOp cfg s k = (.error e, s2) → s2.seg = s.seg) ∧
    (∀ e s2, cleanupExpired cfg now s = (.error e, s2) → s2.seg = s.seg) := by
  refine ⟨?_, ?_, ?_⟩
  · intro e s2 hset
    simp only [setOp, refreshS] at hset
    split at hset
    next s3 heq => simp at hset
    next e2 heq =>
      simp only [Prod.mk.injEq] at hset
      obtain ⟨-, hs⟩ := hset
      rw [← hs]
  · intro e s2 hdel
    simp only [deleteOp, refreshS] at hdel
    split at hdel
    next hsome =>
      split at hdel
      next s3 heq => simp at hdel
      next e2 heq =>
        simp only [Prod.mk.injEq] at hdel
        obtain ⟨-, hs⟩ := hdel
        rw [← hs]
    next hnone => simp at hdel
  · intro e s2 hcl
    simp only [cleanupExpired] at hcl
    split at hcl
    next hemp => simp at hcl
    next hemp =>
      split at hcl
      next sg heq => simp at hcl
      next e2 heq =>
        simp only [Prod.mk.injEq] at hcl
        obtain ⟨-, hs⟩ := hcl
        rw [← hs]

/-- C6 witness: the failing 128 MiB `set` leaves the fresh segment
untouched. -/
theorem claim_C6_witness :
    (setOp cfgPNC 0 p0 "k" (.bin (List.replicate 134217728 0)) none).2.seg =
      p0.seg := by
  have hw : writeData cfgPNC.ser p0.seg
      (alSet (readData p0.seg) "k" ⟨.bin (List.replicate 134217728 0), 0, none⟩) =
      .error .memoryFull := by
    show writeData cfgNC seg0
      (alSet (readData seg0) "k" ⟨.bin (List.replicate 134217728 0), 0, none⟩) = _
    rw [readData_seg0]
    exact writeData_huge_err
  have hset := setOp_of_writeData cfgPNC 0 p0 "k"
    (.bin (List.replicate 134217728 0)) none rfl _ hw
  exact (claim_C6 cfgPNC 0 p0 "k" (.bin (List.replicate 134217728 0)) none).1
    .memoryFull _ (by rw [hset])

end LatZero
